import Mathlib

/-
Shallow embedding of `src/lightning_app/_setup_tools.py`.

Text is modelled as `List Char`; a file is a `List (List Char)` of lines
(without trailing newline characters — the Python code either strips them
or truncates them away before they matter, as noted at each definition).
All definitions are structural recursions, so they evaluate by kernel
reduction (`decide` / `rfl`) on concrete inputs.
-/

namespace SetupTools

/-- Python whitespace characters as recognised by `str.strip` / `str.lstrip` /
`str.rstrip` with no argument (ASCII subset; the repository's files are ASCII). -/
def pyIsWs (c : Char) : Bool :=
  c == ' ' || c == '\t' || c == '\n' || c == '\r' || c == '\x0b' || c == '\x0c'

/-- Python `str.lstrip()`. -/
def pyLstrip (l : List Char) : List Char := l.dropWhile pyIsWs

/-- Python `str.rstrip()`. -/
def pyRstrip (l : List Char) : List Char := ((l.reverse).dropWhile pyIsWs).reverse

/-- Python `str.strip()`. -/
def pstrip (l : List Char) : List Char := pyRstrip (pyLstrip l)

/-- `ln[: ln.index(c)]` when `c` occurs in `ln`, otherwise `ln` itself:
everything before the first occurrence of `c`. -/
def truncAt (c : Char) (l : List Char) : List Char := l.takeWhile (fun x => !(x == c))

/-- Python `str.startswith`. -/
def startsW : List Char → List Char → Bool
  | [], _ => true
  | _ :: _, [] => false
  | p :: ps, c :: cs => p == c && startsW ps cs

/-- Python `pat in s` for strings: `pat` occurs as a contiguous substring of `s`. -/
def containsSub (p : List Char) : List Char → Bool
  | [] => startsW p []
  | c :: cs => startsW p (c :: cs) || containsSub p cs

/-- Scanner realising Python `str.replace(pat, rep)`: left-to-right,
non-overlapping, the replacement text is not rescanned.  The counter is the
number of characters of a matched pattern still to be consumed without
scanning. -/
def raGo (pat rep : List Char) : Nat → List Char → List Char
  | _, [] => []
  | Nat.succ k, _ :: cs => raGo pat rep k cs
  | 0, c :: cs =>
    if startsW pat (c :: cs) = true then rep ++ raGo pat rep (pat.length - 1) cs
    else c :: raGo pat rep 0 cs

/-- Python `s.replace(pat, rep)`.  Every call site in `_setup_tools.py` passes a
non-empty literal pattern; the empty-pattern case (unused) returns `s`. -/
def replaceAll (pat rep s : List Char) : List Char :=
  if pat.isEmpty then s else raGo pat rep 0 s

/-- ASCII lower-casing, as used by case-insensitive regex matching
(`re.IGNORECASE`; all marker characters are ASCII). -/
def lowerA (c : Char) : Char :=
  if 'A' ≤ c ∧ c ≤ 'Z' then Char.ofNat (c.toNat + 32) else c

/-- Case-insensitive literal match of `pat` at the start of `s`. -/
def ciIsPrefixOf : List Char → List Char → Bool
  | [], _ => true
  | _ :: _, [] => false
  | p :: ps, c :: cs => lowerA p == lowerA c && ciIsPrefixOf ps cs

/-- Case-insensitive literal occurrence of `pat` anywhere in `s`. -/
def ciContains (p : List Char) : List Char → Bool
  | [] => ciIsPrefixOf p []
  | c :: cs => ciIsPrefixOf p (c :: cs) || ciContains p cs

/-- Index of the first (leftmost) case-insensitive match of `pat` in `t`. -/
def firstMatchIdx (pat : List Char) : List Char → Option Nat
  | [] => if ciIsPrefixOf pat [] = true then some 0 else none
  | c :: cs =>
    if ciIsPrefixOf pat (c :: cs) = true then some 0
    else (firstMatchIdx pat cs).map (fun n => n + 1)

/-- `skip_begin` marker of `_load_readme_description` (line 70). -/
def beginM : List Char := "<!-- following section will be skipped from PyPI description -->".toList

/-- `skip_end` marker of `_load_readme_description` (line 71). -/
def endM : List Char := "<!-- end skipping PyPI description -->".toList

/-- Replacement text of the `re.sub` on line 73. -/
def placeholderM : List Char := "<!--  -->".toList

/-- Scanner realising `re.sub(rf"{skip_begin}.+?{skip_end}", "<!--  -->", text,
flags=re.IGNORECASE + re.DOTALL)`: at each position, if the begin marker
matches (case-insensitively) and the end marker matches somewhere at distance
at least one character past the begin marker (`.+?` needs one character, and
non-greedily takes the nearest such end), the whole span is replaced and
scanning resumes after it; otherwise scanning moves one character.  The
counter is the number of characters of a matched span still to skip. -/
def ssGo : Nat → List Char → List Char
  | _, [] => []
  | Nat.succ k, _ :: cs => ssGo k cs
  | 0, c :: cs =>
    if ciIsPrefixOf beginM (c :: cs) = true then
      match firstMatchIdx endM ((c :: cs).drop (beginM.length + 1)) with
      | some j => placeholderM ++ ssGo (beginM.length + j + endM.length) cs
      | none => c :: ssGo 0 cs
    else c :: ssGo 0 cs

/-- The PyPI-exclusion removal step (line 73 of the source). -/
def subSkip (s : List Char) : List Char := ssGo 0 s

/-- `posixpath.join` for two components (the code runs with the POSIX
separator `/`). -/
def osPathJoin (a b : List Char) : List Char :=
  if startsW "/".toList b = true then b
  else if a = [] ∨ startsW "/".toList a.reverse = true then a ++ b
  else a ++ "/".toList ++ b

/-- Needle of the static-assets substitution (line 60). -/
def staticN : List Char := "docs/source/_static/".toList

/-- Needle of the readthedocs badge substitution (line 63). -/
def badgeN : List Char := "badge/?version=stable".toList

/-- Needle of the readthedocs link substitution (line 64). -/
def rtdN : List Char := "lightning.readthedocs.io/en/stable/".toList

/-- Needle of the codecov badge substitution (line 66). -/
def covN : List Char := "/branch/master/graph/badge.svg".toList

/-- Needle of the github badge substitution (line 68). -/
def ghN : List Char := "badge.svg?branch=master&event=push".toList

/-- The pure text transformation of `_load_readme_description` (lines 56-79);
reading the file and the f-string wrappers are identities on the text.  The
substitutions are applied innermost-first in source order: static assets
(line 60), readthedocs badge (63), readthedocs link (64), codecov badge (66),
github badge (68), then the PyPI-exclusion `re.sub` (73). -/
def loadReadme (homepage ver text : List Char) : List Char :=
  subSkip
    (replaceAll ghN ("badge.svg?tag=".toList ++ ver)
      (replaceAll covN ("/release/".toList ++ ver ++ "/graph/badge.svg".toList)
        (replaceAll rtdN ("lightning.readthedocs.io/en/".toList ++ ver)
          (replaceAll badgeN ("badge/?version=".toList ++ ver)
            (replaceAll staticN
              (osPathJoin (osPathJoin (osPathJoin homepage ("raw".toList)) ver) staticN)
              text)))))

/-- The three skip tests of `_load_requirements` (lines 39-46): direct URL,
index-url directive, and emptiness; a surviving line is appended. -/
def pcheck (t : List Char) : Option (List Char) :=
  if startsW "http".toList t = true then none
  else if startsW "--extra-index-url".toList t = true then none
  else if t.isEmpty = true then none
  else some t

/-- Per-line treatment of `_load_requirements` (lines 35-46): comment
truncation and re-strip (lines 37-38), then the three skip tests. -/
def procLine (c : Char) (s : List Char) : Option (List Char) :=
  pcheck (if c ∈ s then pstrip (truncAt c s) else s)

/-- `_load_requirements` (lines 26-47) on the list of raw file lines
(`readlines` keeps the newline, but the initial `.strip()` on line 33 removes
it, so newline-free lines are equivalent input). -/
def loadRequirements (c : Char) (raws : List (List Char)) : List (List Char) :=
  (raws.map pstrip).filterMap (procLine c)

/-- The selection predicate of C3: non-empty, not a direct URL, not an
index-url directive. -/
def keepB (t : List Char) : Bool :=
  !(t.isEmpty) && !(startsW "http".toList t) && !(startsW "--extra-index-url".toList t)

/-- Characters matched by the regex class `[\w+_]` of line 103/140 (`\w`
taken in its ASCII reading; the repository's identifiers are ASCII). -/
def isVarChar (c : Char) : Bool := c.isAlphanum || c == '_' || c == '+'

/-- `re.match(r"^([\w+_]+) =", ln)` (lines 103 and 140): a non-empty maximal
run of class characters followed literally by the two characters space,
equals; the group is that run. -/
def varMatch (ln : List Char) : Option (List Char) :=
  let run := ln.takeWhile isVarChar
  if run ≠ [] ∧ startsW " =".toList (ln.dropWhile isVarChar) = true then some run
  else none

/-- `KEEP_FILES` (line 86). -/
def keepNames : List (List Char) :=
  ["_logger".toList, "_root_logger".toList, "_console".toList,
   "formatter".toList, "_PACKAGE_ROOT".toList, "_PROJECT_ROOT".toList]

/-- The generated re-export line `f"from {import_path} import {name}  # noqa: F401"`
(lines 112, 146, 159). -/
def mkImport (ipath name : List Char) : List Char :=
  "from ".toList ++ ipath ++ " import ".toList ++ name ++ "  # noqa: F401".toList

/-- `pkg_name + "." + local_path.replace(".py", "").replace(os.path.sep, ".")`
(line 137). -/
def importPath (pkg lp : List Char) : List Char :=
  pkg ++ ".".toList ++ replaceAll "/".toList ".".toList (replaceAll ".py".toList [] lp)

/-- `len(ln) - len(ln.lstrip())` (lines 133, 160). -/
def indentWidth (ln : List Char) : Nat := ln.length - (pyLstrip ln).length

/-- `any(ln.lstrip().startswith(k) for k in ["def", "class"])` (line 149). -/
def defclassB (ln : List Char) : Bool :=
  startsW "def".toList (pyLstrip ln) || startsW "class".toList (pyLstrip ln)

/-- Line 150: `ln.replace("def ", "").replace("class ", "").strip()`. -/
def defName0 (ln : List Char) : List Char :=
  pstrip (replaceAll "class ".toList [] (replaceAll "def ".toList [] ln))

/-- Lines 154-155: truncate the extracted name at the first of `(`, `)`, `:`
(`min` of the three indices, each defaulting to the length). -/
def defName (ln : List Char) : List Char :=
  (defName0 ln).take (min (truncAt '(' (defName0 ln)).length
    (min (truncAt ')' (defName0 ln)).length (truncAt ':' (defName0 ln)).length))

/-- Lines 147-160 of the MODULE branch: the import-with-hyphen drop and the
def/class capture, given the lines `e1` already emitted for this source line
by the assignment capture. -/
def moduleStepRest (ipath : List Char) (st : Nat) (ln : List Char)
    (e1 : List (List Char)) : List (List Char) × Nat :=
  if containsSub "import ".toList ln = true ∧ '-' ∈ ln then (e1, st)
  else if defclassB ln = true then
    if containsSub "on_before_run".toList (defName0 ln) = true then (e1, st)
    else if startsW "__".toList (defName ln) = true ∨ '=' ∈ defName ln then (e1, st)
    else (e1 ++ [mkImport ipath (defName ln)], indentWidth ln + 4)
  else (e1, st)

/-- Lines 137-160 of the MODULE branch after the watermark logic: the
hyphenated-import-path drop, the keep-list assignment capture (which falls
through to the later tests), then `moduleStepRest`. -/
def moduleStepCore (ipath : List Char) (st : Nat) (ln : List Char) :
    List (List Char) × Nat :=
  if '-' ∈ ipath then ([], st)
  else
    match varMatch ln with
    | some name =>
      if name ∈ keepNames then moduleStepRest ipath st ln [mkImport ipath name]
      else ([], st)
    | none => moduleStepRest ipath st ln []

/-- One iteration of the MODULE-branch loop (lines 129-160): comment
truncation and rstrip, then the skip-indentation watermark (lines 132-136:
skip when the indentation is at least the watermark, otherwise lower the
watermark to the line's indentation), then the rest of the body. -/
def moduleStep (ipath : List Char) (st : Nat) (raw : List Char) :
    List (List Char) × Nat :=
  if st ≠ 0 ∧ pyRstrip (truncAt '#' raw) ≠ [] then
    if st ≤ indentWidth (pyRstrip (truncAt '#' raw)) then ([], st)
    else moduleStepCore ipath (indentWidth (pyRstrip (truncAt '#' raw)))
      (pyRstrip (truncAt '#' raw))
  else moduleStepCore ipath st (pyRstrip (truncAt '#' raw))

/-- The whole MODULE-branch loop: emitted stub lines for the given raw lines,
threading the watermark. -/
def moduleLines (ipath : List Char) : Nat → List (List Char) → List (List Char)
  | _, [] => []
  | st, r :: rs =>
    (moduleStep ipath st r).1 ++ moduleLines ipath (moduleStep ipath st r).2 rs

/-- Watermark state after processing a list of lines. -/
def stateAfter (ipath : List Char) : Nat → List (List Char) → Nat
  | st, [] => st
  | st, r :: rs => stateAfter ipath (moduleStep ipath st r).2 rs

/-- Python `str.split("/")`. -/
def splitSlash : List Char → List (List Char)
  | [] => [[]]
  | c :: cs =>
    if c = '/' then [] :: splitSlash cs
    else
      match splitSlash cs with
      | [] => [[c]]
      | h :: t => (c :: h) :: t

/-- Python `".".join(parts)`. -/
def joinWithDot : List (List Char) → List Char
  | [] => []
  | [x] => x
  | x :: xs => x ++ ".".toList ++ joinWithDot xs

/-- `posixpath.dirname`: everything before the last separator, with trailing
separators stripped unless the head is all separators. -/
def pyDirname (p : List Char) : List Char :=
  let i := p.length - ((p.reverse).takeWhile (fun c => !(c == '/'))).length
  let head := p.take i
  if head ≠ [] ∧ head.all (fun c => c == '/') = false then
    ((head.reverse).dropWhile (fun c => c == '/')).reverse
  else head

/-- `posixpath.basename`: everything after the last separator. -/
def basename (p : List Char) : List Char :=
  ((p.reverse).takeWhile (fun c => !(c == '/'))).reverse

/-- `".".join([pkg_name] + dirs)` with
`dirs = [d for d in os.path.dirname(local_path).split(os.path.sep) if d]`
(lines 110-111). -/
def entryImportPath (pkg lp : List Char) : List Char :=
  joinWithDot (pkg :: (splitSlash (pyDirname lp)).filter (fun d => d ≠ []))

/-- The ENTRY branch's per-line treatment after comment truncation and
rstrip (lines 103-116): keep-list assignment capture, dunder exclusion,
hyphenated-import drop, `__about__` drop, and the passthrough with the
package name replaced. -/
def entryStepLn (pkg newPkg lp ln : List Char) : List (List Char) :=
  match varMatch ln with
  | some name =>
    if name ∉ keepNames then []
    else if startsW "__".toList name = true ∧ name ≠ "__all__".toList then []
    else [mkImport (entryImportPath pkg lp) name]
  | none =>
    if containsSub "import ".toList ln = true ∧ '-' ∈ ln then []
    else if containsSub "__about__".toList ln = true then []
    else [replaceAll pkg newPkg ln]

/-- One iteration of the ENTRY-branch loop (lines 100-116): comment
truncation and rstrip (lines 101-102), then the line treatment. -/
def entryStep (pkg newPkg lp raw : List Char) : List (List Char) :=
  entryStepLn pkg newPkg lp (pyRstrip (truncAt '#' raw))

/-- The whole ENTRY-branch loop. -/
def entryLines (pkg newPkg lp : List Char) : List (List Char) → List (List Char)
  | [] => []
  | r :: rs => entryStep pkg newPkg lp r ++ entryLines pkg newPkg lp rs

/-- Outcome of `_create_meta_package` for one discovered source file:
`skippedHyphen` is the silent `continue` of lines 92-93, `skippedPrivate` is
the `logging.warning` + `continue` of lines 118-120 (a warning is logged
exactly in this case), `written body` means a stub file with the given lines
is written (lines 162-165). -/
inductive FileOutcome where
  | skippedHyphen : FileOutcome
  | skippedPrivate : FileOutcome
  | written : List (List Char) → FileOutcome
deriving DecidableEq

/-- Processing of one discovered file by `_create_meta_package`
(lines 89-160), as a function of the path relative to the package root and
the file's lines. -/
def processFile (pkg newPkg lp : List Char) (raws : List (List Char)) : FileOutcome :=
  if '-' ∈ basename lp then .skippedHyphen
  else if basename lp = "__init__.py".toList ∨ basename lp = "__main__.py".toList then
    .written (entryLines pkg newPkg lp raws)
  else if startsW "_".toList (basename lp) = true ∧
      basename lp ≠ "__main__.py".toList then
    .skippedPrivate
  else .written (moduleLines (importPath pkg lp) 0 raws)

/-- The loop of `_create_meta_package` over all discovered files. -/
def processAll (pkg newPkg : List Char) (files : List (List Char × List (List Char))) :
    List FileOutcome :=
  files.map (fun f => processFile pkg newPkg f.1 f.2)

/-- `os.path.join(folder, new_pkg.replace(".", os.path.sep), local_path)`
(line 162): the mirrored destination path of a stub. -/
def destFile (folder newPkg lp : List Char) : List Char :=
  osPathJoin (osPathJoin folder (replaceAll ".".toList "/".toList newPkg)) lp

/-- The write performed for one file, when one is performed: destination path
and stub body. -/
def processFileWrite (folder newPkg pkg lp : List Char) (raws : List (List Char)) :
    Option (List Char × List (List Char)) :=
  match processFile pkg newPkg lp raws with
  | .written b => some (destFile folder newPkg lp, b)
  | _ => none

/-- A line is indented when it starts with a whitespace character (every
non-blank line of a Python function or class body is). -/
def isIndented (l : List Char) : Bool :=
  match l with
  | [] => false
  | c :: _ => pyIsWs c

/-- Checker for conditions on every non-empty tail of a list. -/
def allTailsOK (f : List Char → Bool) : List Char → Bool
  | [] => true
  | c :: cs => f (c :: cs) && allTailsOK f cs

/- ### Basic lemmas about `startsW` and `containsSub` -/

theorem startsW_nil (s : List Char) : startsW [] s = true := rfl

theorem startsW_iff {p s : List Char} : startsW p s = true ↔ ∃ t, s = p ++ t := by
  induction p generalizing s with
  | nil => simp [startsW]
  | cons a ps ih =>
    cases s with
    | nil => simp [startsW]
    | cons c cs =>
      simp only [startsW, Bool.and_eq_true, beq_iff_eq, ih, List.cons_append]
      constructor
      · rintro ⟨rfl, t, rfl⟩; exact ⟨t, rfl⟩
      · rintro ⟨t, h⟩
        rw [List.cons.injEq] at h
        exact ⟨h.1.symm, t, h.2⟩

theorem startsW_append_self (p t : List Char) : startsW p (p ++ t) = true :=
  startsW_iff.mpr ⟨t, rfl⟩

theorem startsW_self (p : List Char) : startsW p p = true := by
  have := startsW_append_self p []
  rwa [List.append_nil] at this

theorem startsW_ne_nil {p : List Char} (h : p ≠ []) : startsW p [] = false := by
  cases p with
  | nil => exact absurd rfl h
  | cons a ps => rfl

theorem startsW_append_weaken {p u : List Char} (v : List Char)
    (h : startsW p u = true) : startsW p (u ++ v) = true := by
  obtain ⟨t, rfl⟩ := startsW_iff.mp h
  rw [List.append_assoc]
  exact startsW_append_self p (t ++ v)

theorem startsW_append_cases {q u v : List Char} (h : startsW q (u ++ v) = true) :
    startsW q u = true ∨ ∃ q2, q = u ++ q2 ∧ startsW q2 v = true := by
  induction u generalizing q with
  | nil => exact Or.inr ⟨q, rfl, h⟩
  | cons a u' ih =>
    cases q with
    | nil => exact Or.inl (startsW_nil _)
    | cons b q' =>
      rw [List.cons_append] at h
      simp only [startsW, Bool.and_eq_true, beq_iff_eq] at h
      obtain ⟨rfl, h2⟩ := h
      rcases ih h2 with h3 | ⟨q2, rfl, h4⟩
      · exact Or.inl (by simp [startsW, h3])
      · exact Or.inr ⟨q2, by simp, h4⟩

theorem containsSub_nil_pat (s : List Char) : containsSub [] s = true := by
  cases s <;> simp [containsSub, startsW]

theorem containsSub_cons (p : List Char) (c : Char) (cs : List Char) :
    containsSub p (c :: cs) = (startsW p (c :: cs) || containsSub p cs) := rfl

theorem containsSub_of_startsW {p s : List Char} (h : startsW p s = true) :
    containsSub p s = true := by
  cases s with
  | nil => exact h
  | cons c cs => simp [containsSub_cons, h]

theorem containsSub_tail {p : List Char} (c : Char) {cs : List Char}
    (h : containsSub p cs = true) : containsSub p (c :: cs) = true := by
  simp [containsSub_cons, h]

theorem containsSub_append_left {p u : List Char} (v : List Char)
    (h : containsSub p u = true) : containsSub p (u ++ v) = true := by
  induction u with
  | nil =>
    have : p = [] := by
      cases p with
      | nil => rfl
      | cons a ps => exact absurd h (by simp [containsSub, startsW])
    subst this
    exact containsSub_nil_pat v
  | cons a u' ih =>
    rw [containsSub_cons] at h
    rcases Bool.or_eq_true_iff.mp h with h1 | h2
    · rw [List.cons_append]
      exact containsSub_of_startsW (by rw [← List.cons_append]; exact startsW_append_weaken v h1)
    · rw [List.cons_append]
      exact containsSub_tail a (ih h2)

theorem containsSub_append_right {p : List Char} (u : List Char) {v : List Char}
    (h : containsSub p v = true) : containsSub p (u ++ v) = true := by
  induction u with
  | nil => exact h
  | cons a u' ih => exact containsSub_tail a ih

theorem containsSub_append_cases {p u v : List Char}
    (h : containsSub p (u ++ v) = true) :
    containsSub p u = true ∨ containsSub p v = true ∨
      ∃ u1 u2 w, p = u1 ++ u2 ∧ u1 ≠ [] ∧ u2 ≠ [] ∧ u = w ++ u1 ∧
        startsW u2 v = true := by
  induction u with
  | nil => exact Or.inr (Or.inl h)
  | cons a u' ih =>
    rw [List.cons_append, containsSub_cons] at h
    rcases Bool.or_eq_true_iff.mp h with h1 | h2
    · cases p with
      | nil => exact Or.inl (containsSub_nil_pat _)
      | cons b p' =>
        simp only [startsW, Bool.and_eq_true, beq_iff_eq] at h1
        obtain ⟨rfl, h3⟩ := h1
        rcases startsW_append_cases h3 with h4 | ⟨q2, rfl, h5⟩
        · exact Or.inl (containsSub_of_startsW (by simp [startsW, h4]))
        · cases q2 with
          | nil =>
            refine Or.inl (containsSub_of_startsW ?_)
            rw [List.append_nil]
            exact startsW_self _
          | cons e q2' =>
            refine Or.inr (Or.inr ⟨b :: u', e :: q2', [], by simp, by simp, by simp, by simp, h5⟩)
    · rcases ih h2 with h3 | h3 | ⟨u1, u2, w, hp, hu1, hu2, rfl, hst⟩
      · exact Or.inl (containsSub_tail a h3)
      · exact Or.inr (Or.inl h3)
      · exact Or.inr (Or.inr ⟨u1, u2, a :: w, hp, hu1, hu2, by simp, hst⟩)

theorem allTailsOK_spec {f : List Char → Bool} :
    ∀ (w l u : List Char), allTailsOK f l = true → l = w ++ u → u ≠ [] → f u = true := by
  intro w
  induction w with
  | nil =>
    intro l u h hl hu
    rw [List.nil_append] at hl
    rw [hl] at h
    cases u with
    | nil => exact absurd rfl hu
    | cons c cs => exact (Bool.and_eq_true_iff.mp h).1
  | cons a w' ih =>
    intro l u h hl hu
    subst hl
    have h2 : allTailsOK f (w' ++ u) = true := (Bool.and_eq_true_iff.mp h).2
    exact ih (w' ++ u) u h2 rfl hu

/- ### Lemmas about `raGo` / `replaceAll` (Python `str.replace`) -/

theorem raGo_skip (pat rep : List Char) :
    ∀ (s : List Char) (k : Nat), raGo pat rep k s = raGo pat rep 0 (s.drop k) := by
  intro s
  induction s with
  | nil => intro k; simp [raGo]
  | cons a cs ih =>
    intro k
    cases k with
    | zero => rfl
    | succ k' => simpa [raGo] using ih k'

theorem raGo_id {pat : List Char} (rep : List Char) :
    ∀ {s : List Char}, containsSub pat s = false → raGo pat rep 0 s = s := by
  intro s
  induction s with
  | nil => intro _; rfl
  | cons a cs ih =>
    intro h
    rw [containsSub_cons, Bool.or_eq_false_iff] at h
    simp only [raGo, h.1, if_neg]
    rw [ih h.2]
    simp

theorem replaceAll_id {pat : List Char} (rep : List Char) {s : List Char}
    (h : containsSub pat s = false) : replaceAll pat rep s = s := by
  unfold replaceAll
  split
  · rfl
  · exact raGo_id rep h

theorem raGo_mem {pat : List Char} (rep : List Char) {c : Char}
    (hpat : pat ≠ []) (hc : c ∉ pat) :
    ∀ (s : List Char) (k : Nat), c ∈ s.drop k → c ∈ raGo pat rep k s := by
  intro s
  induction s with
  | nil => intro k h; simp at h
  | cons a cs ih =>
    intro k h
    cases k with
    | succ k' => simpa [raGo] using ih k' (by simpa using h)
    | zero =>
      rw [List.drop_zero] at h
      by_cases hm : startsW pat (a :: cs) = true
      · obtain ⟨t, ht⟩ := startsW_iff.mp hm
        have hlen : 1 ≤ pat.length := List.length_pos.mpr hpat
        have hct : c ∈ t := by
          rw [ht] at h
          rcases List.mem_append.mp h with h3 | h3
          · exact absurd h3 hc
          · exact h3
        have h1 : cs = (pat ++ t).drop 1 := by rw [← ht]; rfl
        have hdrop : cs.drop (pat.length - 1) = t := by
          rw [h1, List.drop_drop]
          have h2 : 1 + (pat.length - 1) = pat.length := by omega
          rw [h2]
          exact List.drop_left pat t
        simp only [raGo, hm, if_pos]
        exact List.mem_append.mpr (Or.inr (ih _ (by rw [hdrop]; exact hct)))
      · simp only [raGo, hm]
        simp only [Bool.false_eq_true, if_neg, not_false_iff]
        rcases List.mem_cons.mp h with rfl | h2
        · exact List.mem_cons_self _ _
        · exact List.mem_cons_of_mem _ (ih 0 (by simpa using h2))

theorem raGo_hits {pat rep : List Char} (hpat : pat ≠ []) :
    ∀ {s : List Char}, containsSub pat s = true →
      containsSub rep (raGo pat rep 0 s) = true := by
  intro s
  induction s with
  | nil =>
    intro h
    rw [show containsSub pat [] = startsW pat [] from rfl, startsW_ne_nil hpat] at h
    exact absurd h (by simp)
  | cons a cs ih =>
    intro h
    by_cases hm : startsW pat (a :: cs) = true
    · simp only [raGo, hm, if_pos]
      exact containsSub_append_left _ (containsSub_of_startsW (startsW_self rep))
    · rw [containsSub_cons, Bool.or_eq_true_iff] at h
      rcases h with h1 | h2
      · exact absurd h1 hm
      · simp only [raGo, hm]
        simp only [Bool.false_eq_true, if_neg, not_false_iff]
        exact containsSub_tail a (ih h2)

theorem replaceAll_hits {pat rep : List Char} {s : List Char} (hpat : pat ≠ [])
    (h : containsSub pat s = true) :
    containsSub rep (replaceAll pat rep s) = true := by
  unfold replaceAll
  split
  · next he => exact absurd (List.isEmpty_iff.mp he) hpat
  · exact raGo_hits hpat h

/-- Core induction: replacing `P` by `R` leaves no occurrence of `P`, provided
`P` does not occur in `R`, no non-empty tail of `R` starts `P`, and no
non-empty proper tail of `P` starts `R` or is started by `R`.  The second
conjunct strengthens the statement for the induction: a proper tail of `P`
that did not start `s` does not start the replaced text either. -/
theorem nriAux (P R : List Char)
    (h2 : containsSub P R = false)
    (h3 : allTailsOK (fun u => !(startsW u P)) R = true)
    (h4 : allTailsOK (fun q => !(startsW q R) && !(startsW R q)) (P.drop 1) = true) :
    ∀ (n : Nat) (s : List Char), s.length ≤ n →
      containsSub P (raGo P R 0 s) = false ∧
      (∀ k, 1 ≤ k → startsW (P.drop k) s = false →
        startsW (P.drop k) (raGo P R 0 s) = false) := by
  have hP : P ≠ [] := by
    intro hPe
    rw [hPe, containsSub_nil_pat] at h2
    exact Bool.noConfusion h2
  have hnil : containsSub P (raGo P R 0 []) = false ∧
      (∀ k, 1 ≤ k → startsW (P.drop k) ([] : List Char) = false →
        startsW (P.drop k) (raGo P R 0 []) = false) := by
    refine ⟨?_, ?_⟩
    · rw [show raGo P R 0 [] = [] from rfl,
        show containsSub P [] = startsW P [] from rfl]
      exact startsW_ne_nil hP
    · intro k hk hks
      exact hks
  intro n
  induction n with
  | zero =>
    intro s hs
    have hse : s = [] := List.length_eq_zero.mp (Nat.le_zero.mp hs)
    subst hse
    exact hnil
  | succ n ih =>
    intro s hs
    cases s with
    | nil => exact hnil
    | cons a cs =>
      cases hm : startsW P (a :: cs) with
      | true =>
        obtain ⟨t, ht⟩ := startsW_iff.mp hm
        have hlen1 : 1 ≤ P.length := List.length_pos.mpr hP
        have h1 : cs = (P ++ t).drop 1 := by rw [← ht]; rfl
        have hdrop : cs.drop (P.length - 1) = t := by
          rw [h1, List.drop_drop]
          have hx : 1 + (P.length - 1) = P.length := by omega
          rw [hx]
          exact List.drop_left P t
        have hred : raGo P R 0 (a :: cs) = R ++ raGo P R 0 t := by
          simp only [raGo, hm, if_pos]
          rw [raGo_skip, hdrop]
        have hlt : t.length ≤ n := by
          have hL := congrArg List.length ht
          simp only [List.length_cons, List.length_append] at hL hs
          omega
        obtain ⟨ihA, ihB⟩ := ih t hlt
        refine ⟨?_, ?_⟩
        · rw [hred]
          by_contra hcon
          rw [Bool.not_eq_false] at hcon
          rcases containsSub_append_cases hcon with hc1 | hc1 | hc1
          · rw [hc1] at h2; exact Bool.noConfusion h2
          · rw [hc1] at ihA; exact Bool.noConfusion ihA
          · obtain ⟨u1, u2, w, hpw, hu1, _, hRw, _⟩ := hc1
            have hf := allTailsOK_spec w R u1 h3 hRw hu1
            rw [Bool.not_eq_true'] at hf
            rw [hpw, startsW_append_self] at hf
            exact Bool.noConfusion hf
        · intro k hk hks
          have hq : P.drop k ≠ [] := by
            intro hqe
            rw [hqe, startsW_nil] at hks
            exact Bool.noConfusion hks
          have hdk : (P.drop 1).drop (k - 1) = P.drop k := by
            rw [List.drop_drop]
            congr 1
            omega
          have htl : P.drop 1 = (P.drop 1).take (k - 1) ++ P.drop k := by
            rw [← hdk]
            exact (List.take_append_drop _ _).symm
          have hf := allTailsOK_spec ((P.drop 1).take (k - 1)) (P.drop 1) (P.drop k)
            h4 htl hq
          simp only [Bool.and_eq_true, Bool.not_eq_true'] at hf
          rw [hred]
          by_contra hcon
          rw [Bool.not_eq_false] at hcon
          rcases startsW_append_cases hcon with hc1 | ⟨q2, hq2, _⟩
          · rw [hf.1] at hc1
            exact Bool.noConfusion hc1
          · have hRq : startsW R (P.drop k) = true := by
              rw [hq2]
              exact startsW_append_self R q2
            rw [hf.2] at hRq
            exact Bool.noConfusion hRq
      | false =>
        have hred : raGo P R 0 (a :: cs) = a :: raGo P R 0 cs := by
          simp only [raGo, hm]
          simp
        have hcl : cs.length ≤ n := by
          simp only [List.length_cons] at hs
          omega
        obtain ⟨ihA, ihB⟩ := ih cs hcl
        refine ⟨?_, ?_⟩
        · rw [hred, containsSub_cons, Bool.or_eq_false_iff]
          refine ⟨?_, ihA⟩
          cases P with
          | nil => exact absurd rfl hP
          | cons p0 P' =>
            show (p0 == a && startsW P' (raGo (p0 :: P') R 0 cs)) = false
            cases hpa : p0 == a with
            | false => simp [hpa]
            | true =>
              have hm' : startsW P' cs = false := by
                have hms : startsW (p0 :: P') (a :: cs) =
                    (p0 == a && startsW P' cs) := rfl
                rw [hms, hpa, Bool.true_and] at hm
                exact hm
              have hres := ihB 1 le_rfl (by
                rw [show (p0 :: P').drop 1 = P' from rfl]
                exact hm')
              rw [show (p0 :: P').drop 1 = P' from rfl] at hres
              rw [hres]
              simp
        · intro k hk hks
          have hq : P.drop k ≠ [] := by
            intro hqe
            rw [hqe, startsW_nil] at hks
            exact Bool.noConfusion hks
          rw [hred]
          cases hqe : P.drop k with
          | nil => exact absurd hqe hq
          | cons b q' =>
            show (b == a && startsW q' (raGo P R 0 cs)) = false
            cases hba : b == a with
            | false => simp [hba]
            | true =>
              have hks' : startsW q' cs = false := by
                rw [hqe] at hks
                rw [show startsW (b :: q') (a :: cs) =
                  (b == a && startsW q' cs) from rfl, hba, Bool.true_and] at hks
                exact hks
              have hq' : q' = P.drop (k + 1) := by
                have hdq : (P.drop k).drop 1 = P.drop (k + 1) := by
                  rw [List.drop_drop]
                rw [hqe] at hdq
                simp only [List.drop_succ_cons, List.drop_zero] at hdq
                exact hdq
              have hres := ihB (k + 1) (by omega) (by rw [← hq']; exact hks')
              rw [← hq'] at hres
              rw [hres]
              simp

theorem replaceAll_no_pat {P R : List Char}
    (h2 : containsSub P R = false)
    (h3 : allTailsOK (fun u => !(startsW u P)) R = true)
    (h4 : allTailsOK (fun q => !(startsW q R) && !(startsW R q)) (P.drop 1) = true)
    (s : List Char) : containsSub P (replaceAll P R s) = false := by
  have hP : P ≠ [] := by
    intro hPe
    rw [hPe, containsSub_nil_pat] at h2
    exact Bool.noConfusion h2
  unfold replaceAll
  split
  · next he => exact absurd (List.isEmpty_iff.mp he) hP
  · exact (nriAux P R h2 h3 h4 s.length s le_rfl).1

/- ### Lemmas about the PyPI-exclusion removal (`ssGo` / `subSkip`) -/

theorem ciIsPrefixOf_nil {p : List Char} (h : p ≠ []) : ciIsPrefixOf p [] = false := by
  cases p with
  | nil => exact absurd rfl h
  | cons a ps => rfl

theorem firstMatchIdx_none {pat : List Char} :
    ∀ {t : List Char}, (∀ k, ciIsPrefixOf pat (t.drop k) = false) →
      firstMatchIdx pat t = none := by
  intro t
  induction t with
  | nil =>
    intro h
    have h0 := h 0
    rw [List.drop_nil] at h0
    simp [firstMatchIdx, h0]
  | cons c cs ih =>
    intro h
    have h0 := h 0
    rw [List.drop_zero] at h0
    simp only [firstMatchIdx, h0]
    rw [ih (fun k => by
      have hk := h (k + 1)
      rwa [List.drop_succ_cons] at hk)]
    simp

theorem ssGo_id :
    ∀ s : List Char,
      (∀ i, ciIsPrefixOf beginM (s.drop i) = true →
        ∀ j, i + beginM.length + 1 ≤ j → ciIsPrefixOf endM (s.drop j) = false) →
      ssGo 0 s = s := by
  intro s
  induction s with
  | nil => intro _; rfl
  | cons a cs ih =>
    intro h
    have htail : ssGo 0 cs = cs := by
      apply ih
      intro i hi j hj
      have hres := h (i + 1) (by rwa [List.drop_succ_cons]) (j + 1) (by omega)
      rwa [List.drop_succ_cons] at hres
    cases hb : ciIsPrefixOf beginM (a :: cs) with
    | false =>
      simp only [ssGo, hb]
      simp [htail]
    | true =>
      have hend : firstMatchIdx endM ((a :: cs).drop (beginM.length + 1)) = none := by
        apply firstMatchIdx_none
        intro k
        rw [List.drop_drop]
        exact h 0 (by rwa [List.drop_zero]) (beginM.length + 1 + k) (by omega)
      simp only [ssGo, hb, hend]
      simp [htail]

theorem subSkip_eq_self {s : List Char}
    (h : ∀ i, ciIsPrefixOf beginM (s.drop i) = true →
      ∀ j, i + beginM.length + 1 ≤ j → ciIsPrefixOf endM (s.drop j) = false) :
    subSkip s = s := ssGo_id s h

theorem ciContains_false {p : List Char} :
    ∀ {s : List Char}, ciContains p s = false →
      ∀ i, ciIsPrefixOf p (s.drop i) = false := by
  intro s
  induction s with
  | nil =>
    intro h i
    rw [List.drop_nil]
    exact h
  | cons c cs ih =>
    intro h i
    rw [show ciContains p (c :: cs) =
      (ciIsPrefixOf p (c :: cs) || ciContains p cs) from rfl,
      Bool.or_eq_false_iff] at h
    cases i with
    | zero => rw [List.drop_zero]; exact h.1
    | succ i' => rw [List.drop_succ_cons]; exact ih h.2 i'

theorem subSkip_id_of_no_begin {s : List Char}
    (h : ciContains beginM s = false) : subSkip s = s := by
  apply subSkip_eq_self
  intro i hi j hj
  rw [ciContains_false h i] at hi
  exact Bool.noConfusion hi

/- ### C1: idempotence of the README rewrite -/

/-- C1 counterexample: applying the rewriter twice with the same version is
not the same as applying it once.  On the text `docs/source/_static/` with
homepage `h` and version `v`, one pass yields
`h/raw/v/docs/source/_static/`, which still contains the static-assets
needle, so a second pass rewrites it again. -/
theorem c1_cex :
    loadReadme "h".toList "v".toList
        (loadReadme "h".toList "v".toList "docs/source/_static/".toList) ≠
      loadReadme "h".toList "v".toList "docs/source/_static/".toList := by
  decide

/-- C1 (amended): the rewrite is the identity on any text that contains none
of the five substitution needles nor (case-insensitively) the skip-begin
marker; hence applying the rewriter twice equals applying it once whenever
the first pass's output is such a text.  This condition is sufficient, not
necessary: with version `stable` the badge substitution maps its needle to
itself, so two passes can agree with one even though the output still
contains a needle. -/
theorem c1_amended (homepage ver text : List Char)
    (h1 : containsSub staticN (loadReadme homepage ver text) = false)
    (h2 : containsSub badgeN (loadReadme homepage ver text) = false)
    (h3 : containsSub rtdN (loadReadme homepage ver text) = false)
    (h4 : containsSub covN (loadReadme homepage ver text) = false)
    (h5 : containsSub ghN (loadReadme homepage ver text) = false)
    (h6 : ciContains beginM (loadReadme homepage ver text) = false) :
    loadReadme homepage ver (loadReadme homepage ver text) =
      loadReadme homepage ver text := by
  set o := loadReadme homepage ver text with ho
  show loadReadme homepage ver o = o
  unfold loadReadme
  rw [replaceAll_id _ h1, replaceAll_id _ h2, replaceAll_id _ h3,
    replaceAll_id _ h4, replaceAll_id _ h5]
  exact subSkip_id_of_no_begin h6

/-- C1 witness: a concrete instance of the amended statement. -/
theorem c1_amended_witness :
    loadReadme "h".toList "1.2.3".toList
        (loadReadme "h".toList "1.2.3".toList "hello".toList) =
      loadReadme "h".toList "1.2.3".toList "hello".toList :=
  c1_amended _ _ _ (by decide) (by decide) (by decide) (by decide) (by decide)
    (by decide)

/- ### C4: the readthedocs badge substitution -/

/-- C4 counterexample: a text containing `badge/?version=stable` whose
rewrite with version `1.2.3` still contains `version=stable`, because the
code only replaces the full needle `badge/?version=stable` and the input has
a bare `version=stable` occurrence as well. -/
theorem c4_cex :
    containsSub badgeN "version=stable x badge/?version=stable".toList = true ∧
    containsSub "version=stable".toList
      (loadReadme "h".toList "1.2.3".toList
        "version=stable x badge/?version=stable".toList) = true := by
  constructor
  · decide
  · decide

/-- C4 (amended): for a text containing `badge/?version=stable` on which the
other substitutions and the PyPI-exclusion removal are inactive, the rewrite
with version `1.2.3` yields output containing `badge/?version=1.2.3` and
containing no occurrence of the full needle `badge/?version=stable` (the
bare substring `version=stable` can survive, as the counterexample shows). -/
theorem c4_amended (homepage text : List Char)
    (h0 : containsSub badgeN text = true)
    (h1 : containsSub staticN text = false)
    (h3 : containsSub rtdN
      (replaceAll badgeN "badge/?version=1.2.3".toList text) = false)
    (h4 : containsSub covN
      (replaceAll badgeN "badge/?version=1.2.3".toList text) = false)
    (h5 : containsSub ghN
      (replaceAll badgeN "badge/?version=1.2.3".toList text) = false)
    (h6 : ciContains beginM
      (replaceAll badgeN "badge/?version=1.2.3".toList text) = false) :
    containsSub "badge/?version=1.2.3".toList
      (loadReadme homepage "1.2.3".toList text) = true ∧
    containsSub badgeN (loadReadme homepage "1.2.3".toList text) = false := by
  have hrep : "badge/?version=".toList ++ "1.2.3".toList =
      "badge/?version=1.2.3".toList := by decide
  have hout : loadReadme homepage "1.2.3".toList text =
      replaceAll badgeN "badge/?version=1.2.3".toList text := by
    unfold loadReadme
    rw [hrep, replaceAll_id _ h1, replaceAll_id _ h3, replaceAll_id _ h4,
      replaceAll_id _ h5]
    exact subSkip_id_of_no_begin h6
  rw [hout]
  constructor
  · exact replaceAll_hits (by decide) h0
  · exact replaceAll_no_pat (by decide) (by decide) (by decide) text

/-- C4 witness: a concrete instance of the amended statement. -/
theorem c4_amended_witness :
    containsSub "badge/?version=1.2.3".toList
      (loadReadme "h".toList "1.2.3".toList "badge/?version=stable".toList) = true ∧
    containsSub badgeN
      (loadReadme "h".toList "1.2.3".toList "badge/?version=stable".toList) = false :=
  c4_amended _ _ (by decide) (by decide) (by decide) (by decide) (by decide)
    (by decide)

/- ### C9: behaviour of the PyPI-exclusion removal -/

/-- C9: the PyPI-exclusion removal replaces a section only when a begin
marker is followed by an end marker with at least one character in between;
in particular, when the text has no begin-marker occurrence followed (with a
non-empty gap) by an end marker — e.g. a begin marker with no subsequent end
marker, or two immediately adjacent markers — the step leaves the text,
markers included, unchanged. -/
theorem c9_subSkip_unchanged (s : List Char)
    (h : ∀ i, i < s.length → ciIsPrefixOf beginM (s.drop i) = true →
      ∀ j, j < s.length → i + beginM.length + 1 ≤ j →
        ciIsPrefixOf endM (s.drop j) = false) :
    subSkip s = s := by
  apply subSkip_eq_self
  intro i hi j hj
  by_cases his : i < s.length
  · by_cases hjs : j < s.length
    · exact h i his hi j hjs hj
    · have hde : s.drop j = [] := List.drop_eq_nil_of_le (by omega)
      rw [hde]
      exact ciIsPrefixOf_nil (by decide)
  · have hde : s.drop i = [] := List.drop_eq_nil_of_le (by omega)
    rw [hde, ciIsPrefixOf_nil (by decide)] at hi
    exact Bool.noConfusion hi

/-- C9 witness: a text that is exactly a begin marker with no end marker
after it is left unchanged. -/
theorem c9_subSkip_unchanged_witness : subSkip beginM = beginM :=
  c9_subSkip_unchanged beginM (by decide)

/- ### Strip/truncate lemmas for the requirements loader -/

theorem mem_dropWhile_of {p : Char → Bool} {x : Char} (hx : p x = false) :
    ∀ {l : List Char}, x ∈ l → x ∈ l.dropWhile p := by
  intro l
  induction l with
  | nil => intro h; simp at h
  | cons a l' ih =>
    intro h
    cases hpa : p a with
    | true =>
      rw [List.dropWhile_cons_of_pos hpa]
      rcases List.mem_cons.mp h with rfl | h2
      · rw [hpa] at hx; exact Bool.noConfusion hx
      · exact ih h2
    | false =>
      rw [List.dropWhile_cons_of_neg (by simp [hpa])]
      exact h

theorem mem_of_dropWhile {p : Char → Bool} {x : Char} :
    ∀ {l : List Char}, x ∈ l.dropWhile p → x ∈ l := by
  intro l
  induction l with
  | nil => intro h; simp at h
  | cons a l' ih =>
    intro h
    cases hpa : p a with
    | true =>
      rw [List.dropWhile_cons_of_pos hpa] at h
      exact List.mem_cons_of_mem a (ih h)
    | false =>
      rw [List.dropWhile_cons_of_neg (by simp [hpa])] at h
      exact h

theorem mem_pyRstrip_of {x : Char} (hx : pyIsWs x = false) {l : List Char}
    (h : x ∈ l) : x ∈ pyRstrip l := by
  unfold pyRstrip
  rw [List.mem_reverse]
  exact mem_dropWhile_of hx (List.mem_reverse.mpr h)

theorem mem_of_pyRstrip {x : Char} {l : List Char} (h : x ∈ pyRstrip l) :
    x ∈ l := by
  unfold pyRstrip at h
  rw [List.mem_reverse] at h
  exact List.mem_reverse.mp (mem_of_dropWhile h)

theorem mem_pstrip_of {x : Char} (hx : pyIsWs x = false) {l : List Char}
    (h : x ∈ l) : x ∈ pstrip l :=
  mem_pyRstrip_of hx (mem_dropWhile_of hx h)

theorem mem_of_pstrip {x : Char} {l : List Char} (h : x ∈ pstrip l) : x ∈ l :=
  mem_of_dropWhile (mem_of_pyRstrip h)

theorem truncAt_lstrip_comm {c : Char} (hc : pyIsWs c = false) :
    ∀ l : List Char, truncAt c (pyLstrip l) = pyLstrip (truncAt c l) := by
  intro l
  induction l with
  | nil => rfl
  | cons a l' ih =>
    unfold pyLstrip truncAt at ih ⊢
    cases hqa : pyIsWs a with
    | true =>
      have hpa : (!(a == c)) = true := by
        cases hac : a == c with
        | true =>
          rw [beq_iff_eq] at hac
          rw [hac] at hqa
          rw [hqa] at hc
          exact Bool.noConfusion hc
        | false => simp [hac]
      rw [List.dropWhile_cons_of_pos hqa,
        @List.takeWhile_cons_of_pos _ (fun x => !(x == c)) a l' hpa,
        List.dropWhile_cons_of_pos hqa]
      exact ih
    | false =>
      have hqa' : ¬ (pyIsWs a = true) := by simp [hqa]
      cases hpa : (!(a == c)) with
      | true =>
        rw [List.dropWhile_cons_of_neg hqa',
          @List.takeWhile_cons_of_pos _ (fun x => !(x == c)) a l' hpa,
          List.dropWhile_cons_of_neg hqa']
      | false =>
        have hpa' : ¬ ((fun x => !(x == c)) a = true) := by simp_all
        rw [List.dropWhile_cons_of_neg hqa',
          @List.takeWhile_cons_of_neg _ (fun x => !(x == c)) a l' hpa']
        rfl

theorem dropWhile_idem (p : Char → Bool) :
    ∀ l : List Char, (l.dropWhile p).dropWhile p = l.dropWhile p := by
  intro l
  induction l with
  | nil => rfl
  | cons a l' ih =>
    cases hpa : p a with
    | true => rw [List.dropWhile_cons_of_pos hpa]; exact ih
    | false =>
      rw [List.dropWhile_cons_of_neg (by simp [hpa]),
        List.dropWhile_cons_of_neg (by simp [hpa])]

theorem firstSplit {c : Char} :
    ∀ {l : List Char}, c ∈ l → ∃ a b, l = a ++ c :: b ∧ c ∉ a := by
  intro l
  induction l with
  | nil => intro h; simp at h
  | cons x l' ih =>
    intro h
    by_cases hxc : x = c
    · subst hxc
      exact ⟨[], l', rfl, by simp⟩
    · have h2 : c ∈ l' := by
        rcases List.mem_cons.mp h with h3 | h3
        · exact absurd h3.symm hxc
        · exact h3
      obtain ⟨a, b, rfl, hna⟩ := ih h2
      exact ⟨x :: a, b, rfl, by
        intro hmem
        rcases List.mem_cons.mp hmem with h4 | h4
        · exact hxc h4.symm
        · exact hna h4⟩

theorem truncAt_append_first {c : Char} :
    ∀ {a : List Char} (b : List Char), c ∉ a → truncAt c (a ++ c :: b) = a := by
  intro a
  induction a with
  | nil =>
    intro b _
    unfold truncAt
    rw [List.nil_append, List.takeWhile_cons_of_neg (by simp)]
  | cons y a' ih =>
    intro b hna
    have hyc : (y == c) = false := by
      rw [beq_eq_false_iff_ne]
      intro hy
      exact hna (hy ▸ List.mem_cons_self y a')
    unfold truncAt at ih ⊢
    rw [List.cons_append, List.takeWhile_cons_of_pos (by simp [hyc])]
    rw [ih b (fun hm => hna (List.mem_cons_of_mem y hm))]

theorem truncAt_of_not_mem {c : Char} :
    ∀ {l : List Char}, c ∉ l → truncAt c l = l := by
  intro l
  induction l with
  | nil => intro _; rfl
  | cons a l' ih =>
    intro h
    have hac : (a == c) = false := by
      rw [beq_eq_false_iff_ne]
      intro ha
      exact h (ha ▸ List.mem_cons_self a l')
    unfold truncAt at ih ⊢
    rw [List.takeWhile_cons_of_pos (by simp [hac])]
    rw [ih (fun hm => h (List.mem_cons_of_mem a hm))]

theorem truncAt_pyRstrip {c : Char} (hc : pyIsWs c = false) {x : List Char}
    (hm : c ∈ x) : truncAt c (pyRstrip x) = truncAt c x := by
  obtain ⟨a, b, rfl, hna⟩ := firstSplit hm
  have hx : pyRstrip (a ++ c :: b) = a ++ c :: ((b.reverse).dropWhile pyIsWs).reverse := by
    unfold pyRstrip
    have hr : (a ++ c :: b).reverse = b.reverse ++ c :: a.reverse := by
      rw [show a ++ c :: b = (a ++ [c]) ++ b by simp, List.reverse_append,
        List.reverse_append]
      simp
    rw [hr, List.dropWhile_append]
    cases he : ((b.reverse).dropWhile pyIsWs).isEmpty with
    | true =>
      rw [if_pos rfl]
      rw [List.dropWhile_cons_of_neg (by simp [hc])]
      rw [List.isEmpty_iff] at he
      rw [he]
      simp
    | false =>
      rw [if_neg (by simp [he])]
      rw [List.reverse_append]
      simp
  rw [hx, truncAt_append_first _ hna, truncAt_append_first _ hna]

theorem truncAt_pstrip {c : Char} (hc : pyIsWs c = false) {ln : List Char}
    (hm : c ∈ ln) :
    pstrip (truncAt c (pstrip ln)) = pstrip (truncAt c ln) := by
  have hm1 : c ∈ pyLstrip ln := mem_dropWhile_of hc hm
  have h1 : truncAt c (pstrip ln) = truncAt c (pyLstrip ln) :=
    truncAt_pyRstrip hc hm1
  rw [h1, truncAt_lstrip_comm hc]
  show pstrip (pyLstrip (truncAt c ln)) = pstrip (truncAt c ln)
  unfold pstrip pyLstrip
  rw [dropWhile_idem]

/- ### C3: the requirements loader -/

theorem pcheck_keepB (t : List Char) :
    pcheck t = if keepB t = true then some t else none := by
  unfold pcheck keepB
  cases h1 : startsW "http".toList t <;>
    cases h2 : startsW "--extra-index-url".toList t <;>
      cases h3 : t.isEmpty <;> simp [h1, h2, h3]

theorem procLine_pstrip {c : Char} (hc : pyIsWs c = false) (ln : List Char) :
    procLine c (pstrip ln) =
      (if keepB (pstrip (truncAt c ln)) = true then some (pstrip (truncAt c ln))
       else none) := by
  unfold procLine
  by_cases hm : c ∈ ln
  · have hm' : c ∈ pstrip ln := mem_pstrip_of hc hm
    rw [if_pos hm', truncAt_pstrip hc hm, pcheck_keepB]
  · have hm' : c ∉ pstrip ln := fun h => hm (mem_of_pstrip h)
    rw [if_neg hm', truncAt_of_not_mem hm, pcheck_keepB]

/-- C3: the requirements loader returns exactly the lines that, after
truncation at the first comment marker and whitespace trimming, are
non-empty, do not start with `http`, and do not start with
`--extra-index-url`, in input order (for any non-whitespace comment marker;
the default marker is `#`). -/
theorem c3_requirements (c : Char) (raws : List (List Char))
    (hc : pyIsWs c = false) :
    loadRequirements c raws =
      (raws.map (fun ln => pstrip (truncAt c ln))).filter (fun t => keepB t) := by
  unfold loadRequirements
  induction raws with
  | nil => rfl
  | cons ln rs ih =>
    simp only [List.map_cons, List.filterMap_cons, List.filter_cons]
    rw [procLine_pstrip hc ln]
    cases hk : keepB (pstrip (truncAt c ln)) with
    | true => simp [hk, ih]
    | false => simp [hk, ih]

/-- C3 witness: a concrete requirements file with a comment, a direct URL, an
index-url directive, a blank line and two surviving requirements. -/
theorem c3_requirements_witness :
    loadRequirements '#'
        [" torch>=1.13.0  # stable".toList, "http://github.com/x/y.zip".toList,
         "--extra-index-url https://x".toList, "   ".toList, "numpy>=1.0".toList] =
      (([" torch>=1.13.0  # stable".toList, "http://github.com/x/y.zip".toList,
         "--extra-index-url https://x".toList, "   ".toList,
         "numpy>=1.0".toList].map (fun ln => pstrip (truncAt '#' ln))).filter
        (fun t => keepB t)) :=
  c3_requirements '#' _ (by decide)

/- ### Lemmas about the MODULE-branch loop -/

theorem moduleStepRest_shape {ip : List Char} {st : Nat} {ln : List Char}
    {e1 : List (List Char)} (he : ∀ x ∈ e1, ∃ nm, x = mkImport ip nm) :
    ∀ l ∈ (moduleStepRest ip st ln e1).1, ∃ nm, l = mkImport ip nm := by
  intro l hl
  unfold moduleStepRest at hl
  split at hl
  · exact he l hl
  · split at hl
    · split at hl
      · exact he l hl
      · split at hl
        · exact he l hl
        · rcases List.mem_append.mp hl with h1 | h1
          · exact he l h1
          · rw [List.mem_singleton] at h1
            exact ⟨_, h1⟩
    · exact he l hl

theorem moduleStepCore_shape {ip : List Char} {st : Nat} {ln : List Char} :
    ∀ l ∈ (moduleStepCore ip st ln).1, ∃ nm, l = mkImport ip nm := by
  intro l hl
  unfold moduleStepCore at hl
  split at hl
  · simp at hl
  · split at hl
    · split at hl
      · refine moduleStepRest_shape ?_ l hl
        intro x hx
        rw [List.mem_singleton] at hx
        exact ⟨_, hx⟩
      · simp at hl
    · refine moduleStepRest_shape ?_ l hl
      intro x hx
      simp at hx

theorem moduleStep_shape {ip : List Char} {st : Nat} {raw : List Char} :
    ∀ l ∈ (moduleStep ip st raw).1, ∃ nm, l = mkImport ip nm := by
  intro l hl
  unfold moduleStep at hl
  split at hl
  · split at hl
    · simp at hl
    · exact moduleStepCore_shape l hl
  · exact moduleStepCore_shape l hl

theorem moduleLines_shape {ip : List Char} :
    ∀ (raws : List (List Char)) (st : Nat) (l : List Char),
      l ∈ moduleLines ip st raws → ∃ nm, l = mkImport ip nm := by
  intro raws
  induction raws with
  | nil =>
    intro st l hl
    simp [moduleLines] at hl
  | cons r rs ih =>
    intro st l hl
    rw [show moduleLines ip st (r :: rs) =
      (moduleStep ip st r).1 ++ moduleLines ip (moduleStep ip st r).2 rs from rfl] at hl
    rcases List.mem_append.mp hl with h1 | h1
    · exact moduleStep_shape l h1
    · exact ih _ l h1

theorem mkImport_not_indented (ip nm : List Char) :
    isIndented (mkImport ip nm) = false := rfl

theorem indented_not_mem_moduleLines {ip : List Char} {raws : List (List Char)}
    {st : Nat} {bl : List Char} (hb : isIndented bl = true) :
    bl ∉ moduleLines ip st raws := by
  intro hmem
  obtain ⟨nm, rfl⟩ := moduleLines_shape raws st bl hmem
  rw [mkImport_not_indented] at hb
  exact Bool.noConfusion hb

theorem moduleLines_append (ip : List Char) :
    ∀ (r1 r2 : List (List Char)) (st : Nat),
      moduleLines ip st (r1 ++ r2) =
        moduleLines ip st r1 ++ moduleLines ip (stateAfter ip st r1) r2 := by
  intro r1
  induction r1 with
  | nil => intro r2 st; rfl
  | cons r rs ih =>
    intro r2 st
    rw [List.cons_append]
    show (moduleStep ip st r).1 ++ moduleLines ip (moduleStep ip st r).2 (rs ++ r2) = _
    rw [ih]
    show _ = ((moduleStep ip st r).1 ++ moduleLines ip (moduleStep ip st r).2 rs) ++
      moduleLines ip (stateAfter ip (moduleStep ip st r).2 rs) r2
    rw [List.append_assoc]

theorem moduleStepCore_dfoo {ip : List Char} (hip : '-' ∉ ip) (st : Nat) :
    moduleStepCore ip st ("def foo():".toList) = ([mkImport ip ("foo".toList)], 4) := by
  unfold moduleStepCore
  rw [if_neg hip]
  split
  · next name hname =>
    rw [show varMatch ("def foo():".toList) = none from by decide] at hname
    exact Option.noConfusion hname
  · unfold moduleStepRest
    rw [if_neg (by decide :
        ¬(containsSub "import ".toList ("def foo():".toList) = true ∧
          '-' ∈ ("def foo():".toList))),
      if_pos (by decide : defclassB ("def foo():".toList) = true),
      if_neg (by decide :
        ¬(containsSub "on_before_run".toList (defName0 ("def foo():".toList)) = true)),
      if_neg (by decide :
        ¬(startsW "__".toList (defName ("def foo():".toList)) = true ∨
          '=' ∈ defName ("def foo():".toList))),
      show defName ("def foo():".toList) = "foo".toList from by decide,
      show indentWidth ("def foo():".toList) = 0 from by decide]
    rfl

theorem moduleStep_dfoo {ip : List Char} (hip : '-' ∉ ip) (st : Nat) :
    moduleStep ip st ("def foo():".toList) = ([mkImport ip ("foo".toList)], 4) := by
  have hln : pyRstrip (truncAt '#' ("def foo():".toList)) = "def foo():".toList := by
    decide
  unfold moduleStep
  rw [hln, show indentWidth ("def foo():".toList) = 0 from by decide]
  by_cases hst : st = 0
  · subst hst
    rw [if_neg (by simp)]
    exact moduleStepCore_dfoo hip 0
  · rw [if_pos ⟨hst, by decide⟩, if_neg (by omega)]
    exact moduleStepCore_dfoo hip 0

theorem moduleStepCore_hyphen {ip : List Char} (hip : '-' ∈ ip) (st : Nat)
    (ln : List Char) : moduleStepCore ip st ln = ([], st) := by
  unfold moduleStepCore
  rw [if_pos hip]

theorem moduleStep_fst_hyphen {ip : List Char} (hip : '-' ∈ ip) (st : Nat)
    (raw : List Char) : (moduleStep ip st raw).1 = [] := by
  unfold moduleStep
  split
  · split
    · rfl
    · rw [moduleStepCore_hyphen hip]
  · rw [moduleStepCore_hyphen hip]

theorem moduleLines_hyphen {ip : List Char} (hip : '-' ∈ ip) :
    ∀ (raws : List (List Char)) (st : Nat), moduleLines ip st raws = [] := by
  intro raws
  induction raws with
  | nil => intro st; rfl
  | cons r rs ih =>
    intro st
    show (moduleStep ip st r).1 ++ moduleLines ip (moduleStep ip st r).2 rs = []
    rw [moduleStep_fst_hyphen hip, ih]
    rfl

theorem pyDirname_sub {x : Char} {p : List Char} (h : x ∈ pyDirname p) : x ∈ p := by
  simp only [pyDirname] at h
  split at h
  · rw [List.mem_reverse] at h
    have h2 := mem_of_dropWhile h
    rw [List.mem_reverse] at h2
    exact List.take_subset _ _ h2
  · exact List.take_subset _ _ h

theorem importPath_hyphen {pkg lp : List Char} (hd : '-' ∈ pyDirname lp) :
    '-' ∈ importPath pkg lp := by
  have h1 : '-' ∈ lp := pyDirname_sub hd
  have h2 : '-' ∈ replaceAll ".py".toList [] lp := by
    unfold replaceAll
    rw [if_neg (by decide)]
    exact raGo_mem [] (by decide) (by decide) lp 0 (by rw [List.drop_zero]; exact h1)
  have h3 : '-' ∈ replaceAll "/".toList ".".toList (replaceAll ".py".toList [] lp) := by
    unfold replaceAll
    rw [if_neg (by decide)]
    exact raGo_mem (".".toList) (by decide) (by decide) _ 0
      (by rw [List.drop_zero]; exact h2)
  unfold importPath
  exact List.mem_append.mpr (Or.inr h3)

/- ### C2: the skip-indentation watermark -/

/-- C2 counterexample: with an active watermark of 4, the line
`    def g():` is indented exactly at the watermark; the code skips it
(emitting nothing and leaving the watermark at 4), whereas processing it
normally after updating the watermark to its indentation would emit a
re-export of `g` and re-arm the watermark at 8. -/
theorem c2_cex :
    moduleStep ("pkg.mod".toList) 4 ("    def g():".toList) = ([], 4) ∧
    moduleStepCore ("pkg.mod".toList) 4 ("    def g():".toList) =
      ([mkImport ("pkg.mod".toList) ("g".toList)], 8) ∧
    (([], 4) : List (List Char) × Nat) ≠
      ([mkImport ("pkg.mod".toList) ("g".toList)], 8) := by
  refine ⟨by decide, by decide, by decide⟩

/-- C2 (amended): while the watermark is active, a non-blank line whose
indentation is at least the watermark (deeper or exactly equal) is skipped
with the watermark unchanged; a non-blank line whose indentation is strictly
shallower lowers the watermark to that indentation and is processed
normally. -/
theorem c2_watermark (ipath : List Char) (st : Nat) (raw : List Char)
    (hst : 0 < st) (hne : pyRstrip (truncAt '#' raw) ≠ []) :
    (st ≤ indentWidth (pyRstrip (truncAt '#' raw)) →
      moduleStep ipath st raw = ([], st)) ∧
    (indentWidth (pyRstrip (truncAt '#' raw)) < st →
      moduleStep ipath st raw =
        moduleStepCore ipath (indentWidth (pyRstrip (truncAt '#' raw)))
          (pyRstrip (truncAt '#' raw))) := by
  constructor
  · intro hle
    unfold moduleStep
    rw [if_pos ⟨by omega, hne⟩, if_pos hle]
  · intro hlt
    unfold moduleStep
    rw [if_pos ⟨by omega, hne⟩, if_neg (by omega)]

/-- C2 witness: a line indented deeper than an active watermark is skipped. -/
theorem c2_watermark_witness :
    moduleStep ("pkg.mod".toList) 4 ("      x = 1".toList) = ([], 4) :=
  (c2_watermark ("pkg.mod".toList) 4 ("      x = 1".toList) (by decide)
    (by decide)).1 (by decide)

/- ### C5: def capture and body elision -/

/-- C5 counterexample: a module file in a hyphenated directory is processed,
but the derived import path contains a hyphen, so the stub is empty and in
particular contains no re-export of `foo`. -/
theorem c5_cex :
    processFile "lightning_app".toList "lightning.app".toList
        "sub-pkg/mod.py".toList
        [("def foo():".toList), ("    pass".toList)] = FileOutcome.written [] ∧
    mkImport (importPath "lightning_app".toList "sub-pkg/mod.py".toList)
        ("foo".toList) ∉ ([] : List (List Char)) := by
  refine ⟨by decide, by simp⟩

/-- C5 (amended): for a processed module file (filename without hyphen, not
an entry name, not underscore-prefixed) whose derived import path contains no
hyphen, a top-level `def foo():` line yields a stub containing the re-export
of `foo`, and no indented line of the original file (in particular no line of
the definition's body) appears in the stub. -/
theorem c5_def_capture (pkg newPkg lp : List Char) (pre post : List (List Char))
    (hh : '-' ∉ basename lp)
    (hni : basename lp ≠ "__init__.py".toList)
    (hnm : basename lp ≠ "__main__.py".toList)
    (hpriv : startsW "_".toList (basename lp) = false)
    (hip : '-' ∉ importPath pkg lp) :
    processFile pkg newPkg lp (pre ++ ("def foo():".toList) :: post) =
      FileOutcome.written
        (moduleLines (importPath pkg lp) 0 (pre ++ ("def foo():".toList) :: post)) ∧
    mkImport (importPath pkg lp) ("foo".toList) ∈
      moduleLines (importPath pkg lp) 0 (pre ++ ("def foo():".toList) :: post) ∧
    ∀ bl ∈ pre ++ ("def foo():".toList) :: post, isIndented bl = true →
      bl ∉ moduleLines (importPath pkg lp) 0 (pre ++ ("def foo():".toList) :: post) := by
  refine ⟨?_, ?_, ?_⟩
  · unfold processFile
    rw [if_neg hh,
      if_neg (by
        rintro (h | h)
        · exact hni h
        · exact hnm h),
      if_neg (by
        rintro ⟨h1, _⟩
        rw [hpriv] at h1
        exact Bool.noConfusion h1)]
  · rw [moduleLines_append]
    apply List.mem_append.mpr
    right
    have hstep := moduleStep_dfoo hip (stateAfter (importPath pkg lp) 0 pre)
    show mkImport (importPath pkg lp) ("foo".toList) ∈
      (moduleStep (importPath pkg lp) (stateAfter (importPath pkg lp) 0 pre)
          ("def foo():".toList)).1 ++
        moduleLines (importPath pkg lp)
          (moduleStep (importPath pkg lp) (stateAfter (importPath pkg lp) 0 pre)
            ("def foo():".toList)).2 post
    rw [hstep]
    exact List.mem_append.mpr (Or.inl (List.mem_singleton.mpr rfl))
  · intro bl _ hib
    exact indented_not_mem_moduleLines hib

/-- C5 witness: a concrete module file with a `def foo():` line followed by a
body line; the re-export of `foo` is in the stub. -/
theorem c5_def_capture_witness :
    mkImport (importPath "lightning_app".toList "mod.py".toList) ("foo".toList) ∈
      moduleLines (importPath "lightning_app".toList "mod.py".toList) 0
        ([] ++ ("def foo():".toList) :: [("    return 1".toList)]) :=
  (c5_def_capture "lightning_app".toList "lightning.app".toList "mod.py".toList
    [] [("    return 1".toList)] (by decide) (by decide) (by decide) (by decide)
    (by decide)).2.1

/- ### C7: private module files -/

/-- C7 counterexample: `_a-b.py` starts with an underscore and is not an
entry filename, but the hyphen test comes first, so it is skipped silently
(`skippedHyphen`) and no warning is logged (`skippedPrivate` is the outcome
that logs a warning). -/
theorem c7_cex :
    processFile "lightning_app".toList "lightning.app".toList
        ("_a-b.py".toList) [] = FileOutcome.skippedHyphen ∧
    FileOutcome.skippedHyphen ≠ FileOutcome.skippedPrivate := by
  refine ⟨by decide, by decide⟩

/-- C7 (amended): a discovered file whose filename starts with an underscore,
contains no hyphen, and is not an entry filename produces no stub and logs a
warning (`skippedPrivate`), and the loop processes the remaining files
independently. -/
theorem c7_private_skip (pkg newPkg lp : List Char) (raws : List (List Char))
    (files1 files2 : List (List Char × List (List Char)))
    (hh : '-' ∉ basename lp)
    (hu : startsW "_".toList (basename lp) = true)
    (hni : basename lp ≠ "__init__.py".toList)
    (hnm : basename lp ≠ "__main__.py".toList) :
    processFile pkg newPkg lp raws = FileOutcome.skippedPrivate ∧
    processAll pkg newPkg (files1 ++ (lp, raws) :: files2) =
      processAll pkg newPkg files1 ++
        FileOutcome.skippedPrivate :: processAll pkg newPkg files2 := by
  have hpf : processFile pkg newPkg lp raws = FileOutcome.skippedPrivate := by
    unfold processFile
    rw [if_neg hh,
      if_neg (by
        rintro (h | h)
        · exact hni h
        · exact hnm h),
      if_pos ⟨hu, hnm⟩]
  refine ⟨hpf, ?_⟩
  unfold processAll
  rw [List.map_append, List.map_cons]
  simp only []
  rw [show processFile pkg newPkg (lp, raws).1 (lp, raws).2 =
    FileOutcome.skippedPrivate from hpf]

/-- C7 witness: a concrete private module file is skipped with a warning. -/
theorem c7_private_skip_witness :
    processFile "lightning_app".toList "lightning.app".toList
        ("_private.py".toList) [] = FileOutcome.skippedPrivate :=
  (c7_private_skip "lightning_app".toList "lightning.app".toList
    ("_private.py".toList) [] [] [] (by decide) (by decide) (by decide)
    (by decide)).1

/- ### C8: every stub line of a module file is a generated re-export -/

/-- C8: when a non-entry file is processed into a written stub, every line of
the stub body is a generated re-export `from <import path> import <name>
 # noqa: F401`, and no indented original line (in particular no line of any
function or class body) appears in the stub. -/
theorem c8_stub_shape (pkg newPkg lp : List Char) (raws : List (List Char))
    (body : List (List Char))
    (hni : basename lp ≠ "__init__.py".toList)
    (hnm : basename lp ≠ "__main__.py".toList)
    (hw : processFile pkg newPkg lp raws = FileOutcome.written body) :
    (∀ l ∈ body, ∃ nm, l = mkImport (importPath pkg lp) nm) ∧
    (∀ bl ∈ raws, isIndented bl = true → bl ∉ body) := by
  have hbody : moduleLines (importPath pkg lp) 0 raws = body := by
    unfold processFile at hw
    split at hw
    · exact FileOutcome.noConfusion hw
    · split at hw
      · next h =>
        rcases h with h | h
        · exact absurd h hni
        · exact absurd h hnm
      · split at hw
        · exact FileOutcome.noConfusion hw
        · injection hw
  constructor
  · intro l hl
    exact moduleLines_shape raws 0 l (by rw [hbody]; exact hl)
  · intro bl _ hib hmem
    exact indented_not_mem_moduleLines hib (by rw [← hbody] at hmem; exact hmem)

/-- C8 witness: in a concrete processed module file, the indented body line
does not appear in the stub. -/
theorem c8_stub_shape_witness :
    ("    return 1".toList) ∉
      moduleLines (importPath "lightning_app".toList "mod2.py".toList) 0
        [("def foo():".toList), ("    return 1".toList)] :=
  (c8_stub_shape "lightning_app".toList "lightning.app".toList "mod2.py".toList
    [("def foo():".toList), ("    return 1".toList)]
    (moduleLines (importPath "lightning_app".toList "mod2.py".toList) 0
      [("def foo():".toList), ("    return 1".toList)])
    (by decide) (by decide) (by decide)).2 ("    return 1".toList)
    (by simp) (by decide)

/- ### C10: hyphenated directory paths -/

/-- C10 counterexample: `a-b/_x.py` has a hyphen-free filename and a
hyphenated directory, but the filename starts with an underscore, so the file
is skipped with a warning and no stub file is written at all. -/
theorem c10_cex :
    processFileWrite "proj".toList "lightning.app".toList
      "lightning_app".toList ("a-b/_x.py".toList) [] = none := by
  decide

/-- C10 (amended): a processed module file (filename hyphen-free, not an
entry name, not underscore-prefixed) whose directory path contains a hyphen
is still written at the mirrored destination path, and its stub is empty:
the derived import path contains the hyphen, so every line is dropped. -/
theorem c10_hyphen_dir (folder newPkg pkg lp : List Char)
    (raws : List (List Char))
    (hh : '-' ∉ basename lp)
    (hni : basename lp ≠ "__init__.py".toList)
    (hnm : basename lp ≠ "__main__.py".toList)
    (hpriv : startsW "_".toList (basename lp) = false)
    (hd : '-' ∈ pyDirname lp) :
    processFileWrite folder newPkg pkg lp raws =
      some (destFile folder newPkg lp, []) := by
  have hip : '-' ∈ importPath pkg lp := importPath_hyphen hd
  have hpf : processFile pkg newPkg lp raws = FileOutcome.written [] := by
    unfold processFile
    rw [if_neg hh,
      if_neg (by
        rintro (h | h)
        · exact hni h
        · exact hnm h),
      if_neg (by
        rintro ⟨h1, _⟩
        rw [hpriv] at h1
        exact Bool.noConfusion h1),
      moduleLines_hyphen hip]
  unfold processFileWrite
  rw [hpf]

/-- C10 witness: a concrete module file in a hyphenated directory is written
as an empty stub at the mirrored destination. -/
theorem c10_hyphen_dir_witness :
    processFileWrite "proj".toList "lightning.app".toList
        "lightning_app".toList ("my-dir/mod.py".toList)
        [("def foo():".toList)] =
      some (destFile "proj".toList "lightning.app".toList
        ("my-dir/mod.py".toList), []) :=
  c10_hyphen_dir "proj".toList "lightning.app".toList "lightning_app".toList
    ("my-dir/mod.py".toList) [("def foo():".toList)] (by decide) (by decide)
    (by decide) (by decide) (by decide)

/- ### C6: the entry-file re-export path -/

/-- C6 counterexample: for the entry file `__init__.py` and the kept name
`_logger`, the emitted line re-exports from `lightning_app` (the package
joined with the directory components of the relative path), not from the
dotted equivalent of the full relative path with its extension stripped
(`lightning_app.__init__`, the path computed in step 1 for module files). -/
theorem c6_cex :
    entryLines "lightning_app".toList "lightning.app".toList
        "__init__.py".toList [("_logger = setup()".toList)] =
      [mkImport ("lightning_app".toList) ("_logger".toList)] ∧
    mkImport (importPath "lightning_app".toList "__init__.py".toList)
        ("_logger".toList) ∉
      entryLines "lightning_app".toList "lightning.app".toList
        "__init__.py".toList [("_logger = setup()".toList)] := by
  refine ⟨by decide, by decide⟩

/-- C6 (amended): in an entry file, a top-level assignment to a keep-list
name is replaced by a re-export import whose dotted path joins the package
name with the non-empty components of the directory of the file's relative
path (the filename itself is dropped, so the path is the package's own
dotted path, not the dotted equivalent of the full relative file path). -/
theorem c6_entry_var (pkg newPkg lp raw name : List Char)
    (hv : varMatch (pyRstrip (truncAt '#' raw)) = some name)
    (hk : name ∈ keepNames) :
    entryStep pkg newPkg lp raw = [mkImport (entryImportPath pkg lp) name] := by
  have hns : startsW "__".toList name = false := by
    have hall : ∀ x ∈ keepNames, startsW "__".toList x = false := by decide
    exact hall name hk
  unfold entryStep entryStepLn
  simp only [hv]
  rw [if_neg (by simp [hk]),
    if_neg (by
      rintro ⟨h1, _⟩
      rw [hns] at h1
      exact Bool.noConfusion h1)]

/-- C6 witness: a concrete entry line with a kept name in a nested entry
file. -/
theorem c6_entry_var_witness :
    entryStep "lightning_app".toList "lightning.app".toList
        "cli/__init__.py".toList ("_logger = setup()  # init".toList) =
      [mkImport (entryImportPath "lightning_app".toList
        "cli/__init__.py".toList) ("_logger".toList)] :=
  c6_entry_var "lightning_app".toList "lightning.app".toList
    "cli/__init__.py".toList ("_logger = setup()  # init".toList)
    ("_logger".toList) (by decide) (by decide)

end SetupTools
